import Mathlib

/-!
Shallow embedding of `src/price_tracker.py` (the repository's most
feature-complete variant, which the spec declares canonical).

Modelling conventions:
* Python floats are modelled as exact rationals (`ℚ`); `None` as `Option`.
* Python dicts keyed by strings are modelled as functions `String → Option _`
  (a missing key is `none`); a dict whose values are lists is modelled as
  `String → List _` with missing keys mapped to `[]`, which is observationally
  equivalent to the script's `.get(k, [])` / `setdefault` accesses.
* Python operations that can raise `TypeError` on `None` operands are embedded
  in `Except String`; every guard present in the source is reproduced, and a
  `.error` is produced exactly where the Python interpreter would raise.
* Decimal string formatting (`f"{p:.2f}"`, `f"{x:.0f}"`) is abstracted by
  exact-rational printing; no claim depends on the digits of those strings.
* I/O is captured by an explicit `Effect` trace: the network fetches, the two
  end-of-run `save_json` calls, and the Discord sends, in program order.
  Fetch results are an input `String → String → RawProduct`; a failed fetch is
  the empty record `{}` that `fetch_rainforest` returns on any exception.
-/

/-- One market entry of the `MARKETS` table (code, domain, label, currency). -/
structure Market where
  code : String
  domain : String
  label : String
  currency : String
deriving DecidableEq, Repr

/-- The `MARKETS` dict (insertion order sa, us, uk — Python dicts iterate in
insertion order, which is the script's fixed market-iteration order). -/
def MARKETS : List Market :=
  [⟨"sa", "amazon.sa", "Amazon.sa", "SAR"⟩,
   ⟨"us", "amazon.com", "Amazon.com", "USD"⟩,
   ⟨"uk", "amazon.co.uk", "Amazon.co.uk", "GBP"⟩]

/-- `HISTORY_KEEP = 10`: keep last N datapoints per market per ASIN. -/
def HISTORY_KEEP : Nat := 10

/-- Python truthiness for an optional string (`None` and `""` are falsy). -/
def pyTruthy : Option String → Bool
  | none => false
  | some s => s ≠ ""

/-- Python `a or b` where `a` is an optional string and `b` a string. -/
def pyOrStr (a : Option String) (b : String) : String :=
  match a with
  | some s => if s = "" then b else s
  | none => b

/-- Python `a or b` where both operands are optional strings. -/
def pyOrOpt (a b : Option String) : Option String :=
  if pyTruthy a then a else b

/-- A Rainforest price sub-dict: `{"value": ..., "currency": ...}`. -/
structure PriceObj where
  value : Option ℚ
  currency : Option String
deriving DecidableEq, Repr

/-- The JSON `product` object returned by `fetch_rainforest`, restricted to the
fields the script reads.  `buybox_price` is `some` exactly when
`product.get("buybox_winner")` and `bb.get("price")` are both truthy.
A failed fetch yields `emptyRawProduct` (the script's `return {}`). -/
structure RawProduct where
  buybox_price : Option PriceObj
  offers : List PriceObj
  link : Option String
  image : Option String
  main_image : Option String
  title : Option String
  availability : Option String
  availability_type : Option String
deriving DecidableEq, Repr

/-- The `{}` record `fetch_rainforest` returns on any exception. -/
def emptyRawProduct : RawProduct := ⟨none, [], none, none, none, none, none, none⟩

/-- `pick_price_from_product`: prefer the buybox winner's price, fall back to
the first offer; note the currency picked with the buybox survives when the
offers list is empty (faithful to the source's control flow). -/
def pick_price_from_product (product : RawProduct) : Option ℚ × Option String :=
  let pc : Option ℚ × Option String :=
    match product.buybox_price with
    | some pd => (pd.value, pd.currency)
    | none => (none, none)
  if pc.1.isSome then pc
  else
    match product.offers with
    | [] => pc
    | first :: _ => (first.value, first.currency)

/-- `format_price`: `None` prints as `"N/A"`; integral values print without a
fraction.  Exact-rational printing abstracts Python's `f"{p:.2f}"`. -/
def format_price (p : Option ℚ) (cur : String) : String :=
  match p with
  | none => "N/A"
  | some q => if q.den = 1 then toString q.num ++ " " ++ cur else toString q ++ " " ++ cur

/-- Abstraction of Python's `f"{x:.0f}"` (digits are irrelevant to all claims). -/
def fmt0 (q : ℚ) : String := toString (Rat.floor q)

/-- `pct(old, new)` from the source: `None` if either operand is `None` or
`old == 0`, otherwise `(new - old) / old * 100.0`. -/
def pct (old new_ : Option ℚ) : Option ℚ :=
  match old, new_ with
  | none, _ => none
  | _, none => none
  | some o, some n => if o = 0 then none else some ((n - o) / o * 100)

/-- The sparkline glyph palette `"▁▂▃▄▅▆▇█"`. -/
def sparkChars : List Char := ['▁', '▂', '▃', '▄', '▅', '▆', '▇', '█']

/-- Palette lookup `chars[idx]` where `idx = int((v - mn) / (mx - mn) * 7)`.
The argument is always in `[0, 7]`, so the default is unreachable; Python's
`int` truncation agrees with `floor` on the non-negative arguments used. -/
def sparkGlyph (q : ℚ) : Char := sparkChars.getD ⌊q⌋.toNat ' '

/-- `sparkline(values)`: empty output when no value is present; the lowest
glyph repeated `len(values)` times when all present values are equal;
otherwise one glyph per position, blanks at `None` positions. -/
def sparkline (values : List (Option ℚ)) : List Char :=
  let vals := values.filterMap id
  match vals with
  | [] => []
  | v0 :: vrest =>
    let mn := vrest.foldl min v0
    let mx := vrest.foldl max v0
    if mn = mx then List.replicate values.length '▁'
    else
      values.map (fun v =>
        match v with
        | none => ' '
        | some x => sparkGlyph ((x - mn) / (mx - mn) * 7))

/-- Present values of a series (`[v for v in values if v is not None]`). -/
def presentVals (values : List (Option ℚ)) : List ℚ := values.filterMap id

/-- `min(vals)` of the present values (0 for an empty series, unused there). -/
def sMin (values : List (Option ℚ)) : ℚ :=
  match presentVals values with
  | [] => 0
  | v0 :: vrest => vrest.foldl min v0

/-- `max(vals)` of the present values (0 for an empty series, unused there). -/
def sMax (values : List (Option ℚ)) : ℚ :=
  match presentVals values with
  | [] => 0
  | v0 :: vrest => vrest.foldl max v0

/-- The change test of `main` (lines 285-291), for one market:
`(prevp is None and curp is not None) or
 (prevp is not None and curp is not None and prevp != curp)`. -/
def changedPair (prevp curp : Option ℚ) : Bool :=
  (prevp.isNone && curp.isSome) || (prevp.isSome && curp.isSome && prevp != curp)

/-- One stored history datapoint `{"t": ts, "p": price}`. -/
structure HistPoint where
  t : String
  p : ℚ
deriving DecidableEq, Repr

/-- The per-market history update of `main` (lines 294-303): append only when
the current price is present, then trim to the last `HISTORY_KEEP` points. -/
def historyAppend (cur : List HistPoint) (curp : Option ℚ) (ts : String) : List HistPoint :=
  match curp with
  | none => cur
  | some pv =>
    let h := cur ++ [⟨ts, pv⟩]
    if HISTORY_KEEP < h.length then h.drop (h.length - HISTORY_KEEP) else h

/-- A sequence of runs' worth of history updates for one product×market:
each run contributes one `(current price, timestamp)` observation. -/
def runHistory (init : List HistPoint) (obs : List (Option ℚ × String)) : List HistPoint :=
  obs.foldl (fun h o => historyAppend h o.1 o.2) init

/-- The datapoints a sequence of observations appends (present prices only). -/
def histPoints (obs : List (Option ℚ × String)) : List HistPoint :=
  obs.filterMap (fun o => o.1.map (fun pv => ⟨o.2, pv⟩))

/-- The per-market info dict built in `main`'s fetch loop (lines 273-280). -/
structure MInfo where
  price : Option ℚ
  currency : Option String
  link : Option String
  image : Option String
  availability : Option String
  title : Option String
deriving DecidableEq, Repr

/-- The `{}` default of `infos.get(mc, {})`. -/
def emptyMInfo : MInfo := ⟨none, none, none, none, none, none⟩

/-- A persisted previous-price record `{"price": ..., "currency": ...}`. -/
structure PrevRec where
  price : Option ℚ
  currency : Option String
deriving DecidableEq, Repr

/-- The `{}` default of `prev_infos.get(mc, {})`. -/
def emptyPrevRec : PrevRec := ⟨none, none⟩

/-- The `cheapest` tuple `(curp, curc, mc)` of `build_product_summary`. -/
structure Cheapest where
  price : ℚ
  currency : String
  mc : String
deriving DecidableEq, Repr

/-- The `biggest_drop` tuple `(change_pct, mc, prevp, curp)`. -/
structure Drop where
  pctv : ℚ
  mc : String
  prevp : ℚ
  curp : ℚ
deriving DecidableEq, Repr

/-- The three accumulators of `build_product_summary`'s market loop. -/
structure BpsAcc where
  lines : List String
  biggest_drop : Option Drop
  cheapest : Option Cheapest
deriving Repr

/-- `curp = info.get("price")` for a market (`info = infos.get(mc, {})`). -/
def curPriceOf (infos : String → Option MInfo) (m : Market) : Option ℚ :=
  ((infos m.code).getD emptyMInfo).price

/-- `curc = info.get("currency") or meta.get("currency")` for a market. -/
def curCurrencyOf (infos : String → Option MInfo) (m : Market) : String :=
  pyOrStr ((infos m.code).getD emptyMInfo).currency m.currency

/-- `prevp = prev.get("price")` for a market (`prev = prev_infos.get(mc, {})`). -/
def prevPriceOf (prev_infos : String → Option PrevRec) (m : Market) : Option ℚ :=
  ((prev_infos m.code).getD emptyPrevRec).price

/-- `change_pct` of the loop body (lines 183-185): computed only when both
prices are present and differ, via `pct`. -/
def changePctOf (infos : String → Option MInfo) (prev_infos : String → Option PrevRec)
    (m : Market) : Option ℚ :=
  let curp := curPriceOf infos m
  let prevp := prevPriceOf prev_infos m
  if prevp.isSome && curp.isSome && prevp != curp then pct prevp curp else none

/-- The `cheapest` update (lines 200-206): strict `<` against the held best,
so an earlier market wins ties. -/
def cheapestUpdate (curp : Option ℚ) (curc mc : String) (cheapest : Option Cheapest) :
    Option Cheapest :=
  match curp with
  | none => cheapest
  | some cv =>
    match cheapest with
    | none => some ⟨cv, curc, mc⟩
    | some ch => if cv < ch.price then some ⟨cv, curc, mc⟩ else some ch

/-- The `biggest_drop` update (lines 207-210): guarded by
`change_pct is not None and curp < prevp`; a non-`None` `change_pct` forces
both prices present, so the extra match arms are unreachable. -/
def biggestDropUpdate (change_pct curp prevp : Option ℚ) (mc : String)
    (bd : Option Drop) : Option Drop :=
  match change_pct, curp, prevp with
  | some cp, some cv, some pv =>
    if cv < pv then
      match bd with
      | none => some ⟨cp, mc, pv, cv⟩
      | some b => if cp < b.pctv then some ⟨cp, mc, pv, cv⟩ else some b
    else bd
  | _, _, _ => bd

/-- A rate table `{"USD": ..., "GBP": ...}` from `convert_rates`. -/
def RateMap : Type := String → Option ℚ

/-- One iteration of `build_product_summary`'s market loop.  The `.error`
arises exactly where CPython raises: `curp < prevp` (line 189) with a present
previous price and an absent current price. -/
def bpsStep (convert : Bool) (rates : Option RateMap)
    (infos : String → Option MInfo) (prev_infos : String → Option PrevRec)
    (acc : BpsAcc) (meta : Market) : Except String BpsAcc :=
  let curp := curPriceOf infos meta
  let curc := curCurrencyOf infos meta
  let prevp := prevPriceOf prev_infos meta
  let change_pct := changePctOf infos prev_infos meta
  let line := "**" ++ meta.label ++ "**: " ++ format_price curp curc
  let step2 : Except String String :=
    match prevp with
    | none => .ok line
    | some pv =>
      if curp ≠ some pv then
        match curp with
        | none => .error "TypeError: unorderable None and float in sign comparison"
        | some cv =>
          let sign := if cv < pv then "🔻" else "🔺"
          let pct_text := match change_pct with
            | some cp => fmt0 |cp| ++ "%"
            | none => ""
          .ok (line ++ "  " ++ sign ++ " (" ++ format_price (some pv) curc ++ " → "
            ++ format_price (some cv) curc ++ ") " ++ pct_text)
      else .ok (line ++ " (no change)")
  match step2 with
  | .error e => .error e
  | .ok line2 =>
    let line3 :=
      if convert && (curc == "USD" || curc == "GBP") && rates.isSome then
        match (rates.getD (fun _ => none)) curc with
        | some rate => if rate ≠ 0 then line2 ++ " · ≈ " ++ format_price (curp.map (· * rate)) "SAR"
                       else line2
        | none => line2
      else line2
    .ok { lines := acc.lines ++ [line3],
          biggest_drop := biggestDropUpdate change_pct curp prevp meta.code acc.biggest_drop,
          cheapest := cheapestUpdate curp curc meta.code acc.cheapest }

/-- The `for mc, meta in MARKETS.items()` loop of `build_product_summary`:
each iteration may raise, which aborts the loop. -/
def bpsFold (convert : Bool) (rates : Option RateMap)
    (infos : String → Option MInfo) (prev_infos : String → Option PrevRec) :
    BpsAcc → List Market → Except String BpsAcc
  | acc, [] => .ok acc
  | acc, m :: t =>
    match bpsStep convert rates infos prev_infos acc m with
    | .error e => .error e
    | .ok acc2 => bpsFold convert rates infos prev_infos acc2 t

/-- `build_product_summary(asin, title, infos, prev_infos, convert, rates)`:
the market loop over `MARKETS`, returning `(lines, biggest_drop, cheapest)`
or the `TypeError` CPython would raise.  (`asin` and `title` are parameters
of the source function but are never read by its body.) -/
def build_product_summary (asin : String) (title : Option String)
    (infos : String → Option MInfo) (prev_infos : String → Option PrevRec)
    (convert : Bool) (rates : Option RateMap) : Except String BpsAcc :=
  bpsFold convert rates infos prev_infos ⟨[], none, none⟩ MARKETS

/-- Generic form of the two "keep the strictly better candidate" updates
(`cheapest` and `biggest_drop`): `key` extracts the comparison value of a
market, `mk` builds the stored tuple, `best` reads the stored value back. -/
def selStep {β : Type} (key : Market → Option ℚ) (mk : ℚ → Market → β) (best : β → ℚ)
    (acc : Option β) (m : Market) : Option β :=
  match key m with
  | none => acc
  | some kv =>
    match acc with
    | none => some (mk kv m)
    | some b => if kv < best b then some (mk kv m) else some b

/-- The `cheapest` payload builder: `(curp, curc, mc)`. -/
def cheapestMk (infos : String → Option MInfo) (kv : ℚ) (m : Market) : Cheapest :=
  ⟨kv, curCurrencyOf infos m, m.code⟩

/-- `cheapestUpdate` is `selStep` at the current-price key. -/
theorem cheapestUpdate_eq_selStep (infos : String → Option MInfo) (acc : Option Cheapest)
    (m : Market) :
    cheapestUpdate (curPriceOf infos m) (curCurrencyOf infos m) m.code acc =
      selStep (curPriceOf infos) (cheapestMk infos) Cheapest.price acc m := by
  unfold cheapestUpdate selStep cheapestMk
  cases curPriceOf infos m <;> cases acc <;> rfl

/-- The drop key: the percent change, but only for markets where
`change_pct` is non-`None` and `curp < prevp` (the line-208 guard). -/
def dropKey (infos : String → Option MInfo) (prev_infos : String → Option PrevRec)
    (m : Market) : Option ℚ :=
  match changePctOf infos prev_infos m, curPriceOf infos m, prevPriceOf prev_infos m with
  | some cp, some cv, some pv => if cv < pv then some cp else none
  | _, _, _ => none

/-- The drop payload: `(change_pct, mc, prevp, curp)` rebuilt from the maps
(the `getD 0` defaults are unreachable when the key is present). -/
def dropMk (infos : String → Option MInfo) (prev_infos : String → Option PrevRec)
    (kv : ℚ) (m : Market) : Drop :=
  ⟨kv, m.code, (prevPriceOf prev_infos m).getD 0, (curPriceOf infos m).getD 0⟩

/-- `biggestDropUpdate` is `selStep` at the drop key. -/
theorem biggestDropUpdate_eq_selStep (infos : String → Option MInfo)
    (prev_infos : String → Option PrevRec) (acc : Option Drop) (m : Market) :
    biggestDropUpdate (changePctOf infos prev_infos m) (curPriceOf infos m)
        (prevPriceOf prev_infos m) m.code acc =
      selStep (dropKey infos prev_infos) (dropMk infos prev_infos) Drop.pctv acc m := by
  unfold biggestDropUpdate selStep dropKey dropMk
  rcases hcp : changePctOf infos prev_infos m with _ | cp <;>
    rcases hc : curPriceOf infos m with _ | cv <;>
    rcases hp : prevPriceOf prev_infos m with _ | pv <;>
    cases acc <;> simp <;> split <;> simp

section SelFold

variable {β : Type} (key : Market → Option ℚ) (mk : ℚ → Market → β) (best : β → ℚ)

/-- Folding `selStep` from a held candidate `b`: if the list offers no
candidate, `b` survives; otherwise the list's own winner `r` replaces `b`
exactly when it is strictly better. -/
theorem foldl_selStep_shift (hmk : ∀ k m, best (mk k m) = k) :
    ∀ (l : List Market) (b : β),
      (l.foldl (selStep key mk best) none = none →
        l.foldl (selStep key mk best) (some b) = some b) ∧
      (∀ r, l.foldl (selStep key mk best) none = some r →
        l.foldl (selStep key mk best) (some b) =
          if best r < best b then some r else some b) := by
  intro l
  induction l with
  | nil =>
    intro b
    exact ⟨fun _ => rfl, fun r hr => absurd hr (by simp)⟩
  | cons m t ih =>
    intro b
    rcases hk : key m with _ | k
    · constructor
      · intro h
        simp only [List.foldl_cons, selStep, hk] at h ⊢
        exact (ih b).1 h
      · intro r h
        simp only [List.foldl_cons, selStep, hk] at h ⊢
        exact (ih b).2 r h
    · constructor
      · intro h
        exfalso
        simp only [List.foldl_cons, selStep, hk] at h
        rcases ht : t.foldl (selStep key mk best) none with _ | r'
        · rw [(ih (mk k m)).1 ht] at h
          exact Option.noConfusion h
        · rw [(ih (mk k m)).2 r' ht] at h
          by_cases hr : best r' < best (mk k m) <;> simp [hr] at h
      · intro r h
        simp only [List.foldl_cons, selStep, hk] at h ⊢
        by_cases hlt : k < best b
        · rw [if_pos hlt]
          rcases ht : t.foldl (selStep key mk best) none with _ | r'
          · rw [(ih (mk k m)).1 ht] at h
            injection h with h
            subst h
            rw [(ih (mk k m)).1 ht, hmk, if_pos hlt]
          · rw [(ih (mk k m)).2 r' ht, hmk] at h
            by_cases hr : best r' < k
            · rw [if_pos hr] at h
              injection h with h
              subst h
              rw [(ih (mk k m)).2 r' ht, hmk, if_pos hr, if_pos (lt_trans hr hlt)]
            · rw [if_neg hr] at h
              injection h with h
              subst h
              rw [(ih (mk k m)).2 r' ht, hmk, if_neg hr, if_pos hlt]
        · rw [if_neg hlt]
          rcases ht : t.foldl (selStep key mk best) none with _ | r'
          · rw [(ih (mk k m)).1 ht] at h
            injection h with h
            subst h
            rw [(ih b).1 ht, if_neg (by rw [hmk]; exact hlt)]
          · rw [(ih (mk k m)).2 r' ht, hmk] at h
            rw [(ih b).2 r' ht]
            by_cases hr : best r' < k
            · rw [if_pos hr] at h
              injection h with h
              subst h
              rfl
            · rw [if_neg hr] at h
              injection h with h
              subst h
              rw [hmk]
              rw [if_neg hlt,
                if_neg (fun hc => hlt (lt_of_le_of_lt (le_of_not_lt hr) hc))]

/-- The fold from `none` yields `none` exactly when no market has a key. -/
theorem foldl_selStep_none_iff (hmk : ∀ k m, best (mk k m) = k) :
    ∀ l : List Market,
      l.foldl (selStep key mk best) none = none ↔ ∀ m ∈ l, key m = none := by
  intro l
  induction l with
  | nil => simp
  | cons m t ih =>
    rcases hk : key m with _ | k
    · simp only [List.foldl_cons, selStep, hk]
      rw [ih]
      constructor
      · intro h m' hm'
        rcases List.mem_cons.mp hm' with rfl | hm'
        · exact hk
        · exact h m' hm'
      · intro h m' hm'
        exact h m' (List.mem_cons_of_mem m hm')
    · simp only [List.foldl_cons, selStep, hk]
      constructor
      · intro h
        exfalso
        rcases ht : t.foldl (selStep key mk best) none with _ | r'
        · rw [(foldl_selStep_shift key mk best hmk t (mk k m)).1 ht] at h
          exact Option.noConfusion h
        · rw [(foldl_selStep_shift key mk best hmk t (mk k m)).2 r' ht] at h
          by_cases hr : best r' < best (mk k m) <;> simp [hr] at h
      · intro h
        exact absurd (h m (List.mem_cons_self m t)) (by simp [hk])

/-- The winner of the fold from `none`: it is built by `mk` from its own key,
its key is a minimum of all present keys, and every market strictly before it
in the list has either no key or a strictly larger key (first-wins ties). -/
theorem foldl_selStep_none_some (hmk : ∀ k m, best (mk k m) = k) :
    ∀ (l : List Market) (r : β), l.foldl (selStep key mk best) none = some r →
      ∃ k w pre post, r = mk k w ∧ key w = some k ∧ l = pre ++ w :: post ∧
        (∀ m ∈ l, ∀ km, key m = some km → k ≤ km) ∧
        (∀ m ∈ pre, ∀ km, key m = some km → k < km) := by
  intro l
  induction l with
  | nil =>
    intro r h
    exact absurd h (by simp)
  | cons m t ih =>
    intro r h
    rcases hk : key m with _ | k0
    · simp only [List.foldl_cons, selStep, hk] at h
      obtain ⟨k, w, pre, post, hr, hkw, hdec, hmin, hpre⟩ := ih r h
      refine ⟨k, w, m :: pre, post, hr, hkw, by rw [hdec]; rfl, ?_, ?_⟩
      · intro m' hm' km hkm
        rcases List.mem_cons.mp hm' with rfl | hm'
        · rw [hk] at hkm
          exact Option.noConfusion hkm
        · exact hmin m' hm' km hkm
      · intro m' hm' km hkm
        rcases List.mem_cons.mp hm' with rfl | hm'
        · rw [hk] at hkm
          exact Option.noConfusion hkm
        · exact hpre m' hm' km hkm
    · simp only [List.foldl_cons, selStep, hk] at h
      rcases ht : t.foldl (selStep key mk best) none with _ | r'
      · -- no candidate in the tail: the head wins
        rw [(foldl_selStep_shift key mk best hmk t (mk k0 m)).1 ht] at h
        injection h with h
        have htnone : ∀ m' ∈ t, key m' = none :=
          (foldl_selStep_none_iff key mk best hmk t).mp ht
        refine ⟨k0, m, [], t, h.symm, hk, rfl, ?_, by simp⟩
        intro m' hm' km hkm
        rcases List.mem_cons.mp hm' with rfl | hm'
        · rw [hk] at hkm
          injection hkm with hkm
          exact le_of_eq hkm
        · rw [htnone m' hm'] at hkm
          exact Option.noConfusion hkm
      · rw [(foldl_selStep_shift key mk best hmk t (mk k0 m)).2 r' ht, hmk] at h
        obtain ⟨k', w', pre', post', hr', hkw', hdec', hmin', hpre'⟩ := ih r' ht
        have hbr' : best r' = k' := by rw [hr', hmk]
        by_cases hlt : best r' < k0
        · -- the tail's winner is strictly better than the head
          rw [if_pos hlt] at h
          injection h with h
          subst h
          refine ⟨k', w', m :: pre', post', hr', hkw', by rw [hdec']; rfl, ?_, ?_⟩
          · intro m' hm' km hkm
            rcases List.mem_cons.mp hm' with rfl | hm'
            · rw [hk] at hkm
              injection hkm with hkm
              subst hkm
              exact le_of_lt (hbr' ▸ hlt)
            · exact hmin' m' hm' km hkm
          · intro m' hm' km hkm
            rcases List.mem_cons.mp hm' with rfl | hm'
            · rw [hk] at hkm
              injection hkm with hkm
              subst hkm
              exact hbr' ▸ hlt
            · exact hpre' m' hm' km hkm
        · -- the head holds: its key is ≤ the tail's winner
          rw [if_neg hlt] at h
          injection h with h
          have hle : k0 ≤ k' := hbr' ▸ le_of_not_lt hlt
          refine ⟨k0, m, [], t, h.symm, hk, rfl, ?_, by simp⟩
          intro m' hm' km hkm
          rcases List.mem_cons.mp hm' with rfl | hm'
          · rw [hk] at hkm
            injection hkm with hkm
            exact le_of_eq hkm
          · exact le_trans hle (hmin' m' hm' km hkm)

end SelFold

/-- A successful `bpsStep` updates `cheapest` and `biggest_drop` exactly by
their `selStep` forms (the step can only fail while building the line text,
before either update). -/
theorem bpsStep_ok_components (convert : Bool) (rates : Option RateMap)
    (infos : String → Option MInfo) (prev_infos : String → Option PrevRec)
    (acc : BpsAcc) (meta : Market) (acc₂ : BpsAcc)
    (h : bpsStep convert rates infos prev_infos acc meta = .ok acc₂) :
    acc₂.cheapest =
      selStep (curPriceOf infos) (cheapestMk infos) Cheapest.price acc.cheapest meta ∧
    acc₂.biggest_drop =
      selStep (dropKey infos prev_infos) (dropMk infos prev_infos) Drop.pctv
        acc.biggest_drop meta := by
  unfold bpsStep at h
  dsimp only at h
  split at h
  · exact absurd h (by simp)
  · injection h with h
    subst h
    constructor
    · rw [← cheapestUpdate_eq_selStep]
    · rw [← biggestDropUpdate_eq_selStep]

/-- A successful market loop computes `cheapest` and `biggest_drop` as pure
`selStep` folds over the same market list. -/
theorem bpsFold_components (convert : Bool) (rates : Option RateMap)
    (infos : String → Option MInfo) (prev_infos : String → Option PrevRec) :
    ∀ (l : List Market) (acc res : BpsAcc),
      bpsFold convert rates infos prev_infos acc l = .ok res →
        res.cheapest =
          l.foldl (selStep (curPriceOf infos) (cheapestMk infos) Cheapest.price) acc.cheapest ∧
        res.biggest_drop =
          l.foldl (selStep (dropKey infos prev_infos) (dropMk infos prev_infos) Drop.pctv)
            acc.biggest_drop := by
  intro l
  induction l with
  | nil =>
    intro acc res h
    injection h with h
    subst h
    exact ⟨rfl, rfl⟩
  | cons m t ih =>
    intro acc res h
    unfold bpsFold at h
    rcases hs : bpsStep convert rates infos prev_infos acc m with e | acc'
    · rw [hs] at h
      exact absurd h (by simp)
    · rw [hs] at h
      obtain ⟨hc, hb⟩ := bpsStep_ok_components convert rates infos prev_infos acc m acc' hs
      obtain ⟨hc', hb'⟩ := ih acc' res h
      exact ⟨by rw [hc', hc, List.foldl_cons], by rw [hb', hb, List.foldl_cons]⟩

/-- `dropKey` in claim terms: present exactly for markets where both prices
are present, the previous price is nonzero, and current < previous; its value
is the percent change. -/
theorem dropKey_eq_some_iff (infos : String → Option MInfo)
    (prev_infos : String → Option PrevRec) (m : Market) (k : ℚ) :
    dropKey infos prev_infos m = some k ↔
      ∃ pv cv, prevPriceOf prev_infos m = some pv ∧ curPriceOf infos m = some cv ∧
        pv ≠ 0 ∧ cv < pv ∧ k = (cv - pv) / pv * 100 := by
  rcases hp : prevPriceOf prev_infos m with _ | pv <;>
    rcases hc : curPriceOf infos m with _ | cv <;>
      simp only [dropKey, changePctOf, pct, hp, hc] <;> simp
  by_cases h0 : pv = 0
  · subst h0
    by_cases hlt : cv < 0 <;> simp [hlt]
  · by_cases hne : pv = cv
    · subst hne
      simp [h0]
    · by_cases hlt : cv < pv <;>
        simp [h0, hne, bne_iff_ne, Ne.symm hne, hlt, eq_comm]

/-- `dropKey` is `none` exactly when the market did not drop (in the code's
sense: absent price, zero previous, or no strict decrease). -/
theorem dropKey_eq_none_iff (infos : String → Option MInfo)
    (prev_infos : String → Option PrevRec) (m : Market) :
    dropKey infos prev_infos m = none ↔
      ¬∃ pv cv, prevPriceOf prev_infos m = some pv ∧ curPriceOf infos m = some cv ∧
        pv ≠ 0 ∧ cv < pv := by
  constructor
  · rintro h ⟨pv, cv, hp, hc, h0, hlt⟩
    have : dropKey infos prev_infos m = some ((cv - pv) / pv * 100) :=
      (dropKey_eq_some_iff infos prev_infos m _).mpr ⟨pv, cv, hp, hc, h0, hlt, rfl⟩
    rw [h] at this
    exact Option.noConfusion this
  · intro h
    rcases hd : dropKey infos prev_infos m with _ | k
    · rfl
    · obtain ⟨pv, cv, hp, hc, h0, hlt, _⟩ :=
        (dropKey_eq_some_iff infos prev_infos m k).mp hd
      exact absurd ⟨pv, cv, hp, hc, h0, hlt⟩ h

/-- A tracked product `{asin, title}`. -/
structure TrackedProduct where
  asin : String
  title : Option String
deriving DecidableEq, Repr

/-- Previous-snapshot document: `productId → market → {price, currency}`. -/
abbrev PrevMap := String → String → Option PrevRec

/-- History document: `productId → market → [{t, p}]`. -/
abbrev HistMap := String → String → List HistPoint

/-- A composed Discord embed, restricted to the fields the script sets. -/
structure Embed where
  title : Option String
  descr : String
  color : Nat
  timestamp : String
  url : Option String
  fields : List (String × String)
  thumbnail : Option String

/-- The observable effects of a run, in program order: network fetches, the
two end-of-run `save_json` calls, and Discord sends. -/
inductive Effect where
  | fetch (asin domain : String)
  | commitHistory (h : HistMap)
  | commitPrev (p : PrevMap)
  | send (e : Embed)

/-- Is this effect a network fetch? -/
def Effect.isFetch : Effect → Bool
  | .fetch _ _ => true
  | _ => false

/-- Is this effect one of the two `save_json` commits? -/
def Effect.isCommit : Effect → Bool
  | .commitHistory _ => true
  | .commitPrev _ => true
  | _ => false

/-- Is this effect a Discord send? -/
def Effect.isSend : Effect → Bool
  | .send _ => true
  | _ => false

/-- The durable on-disk state: the two JSON documents. -/
structure Durable where
  prevDoc : PrevMap
  histDoc : HistMap

/-- How one effect acts on durable state: only the commits write. -/
def applyEffect (d : Durable) : Effect → Durable
  | .commitHistory h => { d with histDoc := h }
  | .commitPrev p => { d with prevDoc := p }
  | _ => d

/-- Replay a trace of effects over durable state. -/
def replay (d : Durable) (tr : List Effect) : Durable := tr.foldl applyEffect d

/-- The per-market `infos[mc]` record built in `main` (lines 273-280). -/
def mkMInfo (prod : RawProduct) (meta : Market) (title_hint : Option String) : MInfo :=
  let pc := pick_price_from_product prod
  { price := pc.1,
    currency := some (pyOrStr pc.2 meta.currency),
    link := some (pyOrStr prod.link (meta.label ++ " link")),
    image := pyOrOpt prod.image prod.main_image,
    availability := pyOrOpt prod.availability prod.availability_type,
    title := pyOrOpt prod.title title_hint }

/-- The three-market fetch loop of `main` (lines 268-281): the `infos` dict
plus the fetch effects, in order. -/
def buildInfos (fetchRes : String → String → RawProduct) (asin : String)
    (title_hint : Option String) : (String → Option MInfo) × List Effect :=
  MARKETS.foldl
    (fun acc meta =>
      let prod := fetchRes asin meta.domain
      let info := mkMInfo prod meta title_hint
      (fun k => if k = meta.code then some info else acc.1 k,
       acc.2 ++ [Effect.fetch asin meta.domain]))
    (fun _ => none, [])

/-- The `changed` detection loop of `main` (lines 285-291): any market whose
price changed (`changedPair`); the `break` makes it an `any`. -/
def productChanged (prev_infos : String → Option PrevRec)
    (infos : String → Option MInfo) : Bool :=
  MARKETS.any fun m => changedPair (prevPriceOf prev_infos m) (curPriceOf infos m)

/-- String-keyed current price (`infos[mc].get("price")`). -/
def curPriceAt (infos : String → Option MInfo) (mc : String) : Option ℚ :=
  ((infos mc).getD emptyMInfo).price

/-- Is `mc` one of the three market codes? -/
def isMarketCode (mc : String) : Bool := MARKETS.any fun m => m.code == mc

/-- The in-memory run state: staged previous snapshot and history. -/
structure RunState where
  prev : PrevMap
  hist : HistMap

/-- A member of the `updates` list (lines 317-325). -/
structure Update where
  asin : String
  title : Option String
  infos : String → Option MInfo
  lines : List String
  biggest_drop : Option Drop
  cheapest : Option Cheapest
  sparks : String → List Char

/-- One iteration of `main`'s product loop (lines 264-327): fetch the three
markets, detect change against the stored snapshot, stage the history and
previous-snapshot updates, build the summary (which may raise the line-189
`TypeError`), and collect an update record when the product changed. -/
def processProduct (fetchRes : String → String → RawProduct) (convert : Bool)
    (rates : Option RateMap) (now : String) (st : RunState) (p : TrackedProduct) :
    Except String (RunState × Option Update) × List Effect :=
  let bi := buildInfos fetchRes p.asin p.title
  let infos := bi.1
  let prev_infos : String → Option PrevRec := fun mc => st.prev p.asin mc
  let changed := productChanged prev_infos infos
  let hist2 : HistMap := fun a mc =>
    if a = p.asin ∧ isMarketCode mc then
      historyAppend (st.hist a mc) (curPriceAt infos mc) now
    else st.hist a mc
  let prev2 : PrevMap := fun a mc =>
    if a = p.asin then
      if isMarketCode mc then
        some ⟨((infos mc).getD emptyMInfo).price, ((infos mc).getD emptyMInfo).currency⟩
      else none
    else st.prev a mc
  (match build_product_summary p.asin (pyOrOpt ((infos "sa").getD emptyMInfo).title p.title)
      infos prev_infos convert rates with
   | .error e => .error e
   | .ok res =>
     let sparks : String → List Char := fun mc =>
       sparkline ((hist2 p.asin mc).map (fun d => some d.p))
     let u : Update :=
       { asin := p.asin,
         title := pyOrOpt ((infos "sa").getD emptyMInfo).title p.title,
         infos := infos, lines := res.lines, biggest_drop := res.biggest_drop,
         cheapest := res.cheapest, sparks := sparks }
     .ok (⟨prev2, hist2⟩, if changed then some u else none)
  , bi.2)

/-- `main`'s product loop: threads the staged state through the products; an
exception aborts the loop, keeping the effects already performed. -/
def runLoop (fetchRes : String → String → RawProduct) (convert : Bool)
    (rates : Option RateMap) (now : String) :
    RunState → List TrackedProduct → Except String (RunState × List Update) × List Effect
  | st, [] => (.ok (st, []), [])
  | st, p :: ps =>
    let pr := processProduct fetchRes convert rates now st p
    match pr.1 with
    | .error e => (.error e, pr.2)
    | .ok (st2, u) =>
      let rest := runLoop fetchRes convert rates now st2 ps
      (match rest.1 with
       | .error e => .error e
       | .ok (stf, us) => .ok (stf, u.toList ++ us)
      , pr.2 ++ rest.2)

/-- `MARKETS[mc]["label"]` (total lookup; the key always exists when used). -/
def marketLabel (mc : String) : String :=
  ((MARKETS.find? (fun m => m.code == mc)).map (·.label)).getD ""

/-- The per-product embed of `main` (lines 369-397): badges, per-market field
lines, sparkline field, thumbnail priority sa → us → uk, and the color rule
`0x2ECC71 if u["biggest_drop"] else 0x95A5A6`. -/
def composeProductEmbed (now : String) (u : Update) : Embed :=
  let desc1 := match u.biggest_drop with
    | some bd => "🔥 **" ++ fmt0 |bd.pctv| ++ "% off**\n"
    | none => ""
  let desc2 := match u.cheapest with
    | some ch => desc1 ++ "Cheapest: **" ++ marketLabel ch.mc ++ "** — "
        ++ format_price (some ch.price) ch.currency ++ "\n"
    | none => desc1
  let fields1 := u.lines.map (fun l => ("​", l))
  let sp := u.sparks "sa"
  let fields2 := if sp ≠ [] then
      fields1 ++ [("Price history (SA)", "`" ++ String.mk sp ++ "`")]
    else fields1
  let img := pyOrOpt (pyOrOpt ((u.infos "sa").getD emptyMInfo).image
      ((u.infos "us").getD emptyMInfo).image) ((u.infos "uk").getD emptyMInfo).image
  { title := u.title,
    url := ((u.infos "sa").getD emptyMInfo).link,
    descr := desc2.trim,
    timestamp := now,
    fields := fields2,
    color := if u.biggest_drop.isSome then 0x2ECC71 else 0x95A5A6,
    thumbnail := if pyTruthy img then img else none }

/-- One digest field (lines 342-355): truncated name and value. -/
def digestField (u : Update) : String × String :=
  let name := (match u.title with | some t => t | none => "None") ++ " (" ++ u.asin ++ ")"
  let value := u.lines.foldl (fun acc l => acc ++ l ++ "\n") ""
  let sp := u.sparks "sa"
  let value2 := if sp ≠ [] then value ++ "\n`" ++ String.mk sp ++ "`" else value
  let linkSA := ((u.infos "sa").getD emptyMInfo).link
  let value3 := if pyTruthy linkSA then
      value2 ++ "\n[View on Amazon.sa](" ++ linkSA.getD "" ++ ")"
    else value2
  (name.take 256, value3.take 1024)

/-- The digest embed (lines 338-362): fixed color `0xF1C40F`. -/
def digestEmbed (now : String) (updates : List Update) : Embed :=
  { title := some "📦 Price Digest",
    descr := "Price updates — " ++ toString updates.length ++ " items\n",
    color := 0xF1C40F,
    timestamp := now,
    url := none,
    fields := updates.map digestField,
    thumbnail := none }

/-- The result of a successful run. -/
structure RunOut where
  prev : PrevMap
  hist : HistMap
  updates : List Update
  embeds : List Embed

/-- `main`'s tracking flow after configuration (lines 240-406, `--test` mode
aside, which touches no state): the product loop, the two `save_json`
commits (history first, then previous snapshot, lines 330-331), and the
digest or per-product sends.  Returns the run outcome and the effect trace;
an uncaught exception aborts before any commit. -/
def runMain (products : List TrackedProduct) (fetchRes : String → String → RawProduct)
    (prev0 : PrevMap) (hist0 : HistMap) (digest convert : Bool)
    (rates : Option RateMap) (now : String) : Except String RunOut × List Effect :=
  let lp := runLoop fetchRes convert rates now ⟨prev0, hist0⟩ products
  match lp.1 with
  | .error e => (.error e, lp.2)
  | .ok (st, updates) =>
    let commits : List Effect := [.commitHistory st.hist, .commitPrev st.prev]
    if updates.isEmpty then
      (.ok ⟨st.prev, st.hist, updates, []⟩, lp.2 ++ commits)
    else
      let embeds := if digest then [digestEmbed now updates]
                    else updates.map (composeProductEmbed now)
      (.ok ⟨st.prev, st.hist, updates, embeds⟩, lp.2 ++ commits ++ embeds.map Effect.send)

/-- Appending one present price always leaves the last `HISTORY_KEEP` points
of the extended list (the untrimmed branch drops zero elements). -/
theorem historyAppend_some (h : List HistPoint) (pv : ℚ) (ts : String) :
    historyAppend h (some pv) ts =
      (h ++ [HistPoint.mk ts pv]).drop ((h ++ [HistPoint.mk ts pv]).length - HISTORY_KEEP) := by
  unfold historyAppend
  dsimp only
  by_cases hl : HISTORY_KEEP < (h ++ [HistPoint.mk ts pv]).length
  · rw [if_pos hl]
  · rw [if_neg hl, Nat.sub_eq_zero_of_le (Nat.le_of_not_lt hl), List.drop_zero]

/-- Trimming to the last `HISTORY_KEEP` commutes with later appends. -/
theorem tail_keep_append (xs ys : List HistPoint) :
    ((xs.drop (xs.length - HISTORY_KEEP)) ++ ys).drop
        (((xs.drop (xs.length - HISTORY_KEEP)) ++ ys).length - HISTORY_KEEP) =
      (xs ++ ys).drop ((xs ++ ys).length - HISTORY_KEEP) := by
  rw [← List.drop_append_of_le_length (Nat.sub_le xs.length HISTORY_KEEP),
    List.drop_drop]
  congr 1
  rw [List.length_append, List.length_drop, List.length_append]
  omega

/-- Across any sequence of observations, the stored history is exactly the
most recent `HISTORY_KEEP`-bounded suffix of "initial history plus all
present observations", in order. -/
theorem runHistory_eq_suffix :
    ∀ (obs : List (Option ℚ × String)) (init : List HistPoint),
      init.length ≤ HISTORY_KEEP →
      runHistory init obs =
        (init ++ histPoints obs).drop ((init ++ histPoints obs).length - HISTORY_KEEP) := by
  intro obs
  induction obs with
  | nil =>
    intro init hlen
    simp only [runHistory, List.foldl_nil, histPoints, List.filterMap_nil, List.append_nil]
    rw [Nat.sub_eq_zero_of_le hlen, List.drop_zero]
  | cons o obs ih =>
    intro init hlen
    rcases o with ⟨c, ts⟩
    rcases c with _ | pv
    · show runHistory (historyAppend init none ts) obs = _
      rw [show historyAppend init none ts = init from rfl]
      rw [ih init hlen]
      rfl
    · show runHistory (historyAppend init (some pv) ts) obs = _
      rw [historyAppend_some]
      have hlen2 : ((init ++ [HistPoint.mk ts pv]).drop
          ((init ++ [HistPoint.mk ts pv]).length - HISTORY_KEEP)).length ≤ HISTORY_KEEP := by
        rw [List.length_drop]
        omega
      rw [ih _ hlen2, tail_keep_append]
      have hpts : histPoints ((some pv, ts) :: obs) = HistPoint.mk ts pv :: histPoints obs := rfl
      rw [hpts, List.append_assoc]
      rfl

/-- The three fetch effects of one product, in market order. -/
theorem processProduct_snd (fetchRes : String → String → RawProduct) (convert : Bool)
    (rates : Option RateMap) (now : String) (st : RunState) (p : TrackedProduct) :
    (processProduct fetchRes convert rates now st p).2 =
      [Effect.fetch p.asin "amazon.sa", Effect.fetch p.asin "amazon.com",
       Effect.fetch p.asin "amazon.co.uk"] := rfl

/-- Every effect the product loop performs is a fetch. -/
theorem runLoop_tr_fetch (fetchRes : String → String → RawProduct) (convert : Bool)
    (rates : Option RateMap) (now : String) :
    ∀ (ps : List TrackedProduct) (st : RunState),
      ∀ e ∈ (runLoop fetchRes convert rates now st ps).2, e.isFetch = true := by
  intro ps
  induction ps with
  | nil =>
    intro st e he
    simp only [runLoop, List.not_mem_nil] at he
  | cons p ps ih =>
    intro st e he
    unfold runLoop at he
    dsimp only at he
    have hmemP : ∀ e ∈ (processProduct fetchRes convert rates now st p).2,
        Effect.isFetch e = true := by
      intro e he
      rw [processProduct_snd] at he
      simp only [List.mem_cons, List.not_mem_nil, or_false] at he
      rcases he with rfl | rfl | rfl <;> rfl
    rcases hp : (processProduct fetchRes convert rates now st p).1 with er | ⟨st2, u⟩ <;>
      rw [hp] at he
    · exact hmemP e he
    · rcases List.mem_append.mp he with he | he
      · exact hmemP e he
      · exact ih st2 e he

/-- Replaying a commit-free trace leaves durable state unchanged. -/
theorem replay_no_commit :
    ∀ (tr : List Effect) (d : Durable),
      (∀ e ∈ tr, e.isCommit = false) → replay d tr = d := by
  intro tr
  induction tr with
  | nil => intro d _; rfl
  | cons e tr ih =>
    intro d h
    have he := h e (List.mem_cons_self e tr)
    have hstep : applyEffect d e = d := by
      cases e <;> first | rfl | (exact absurd he (by simp [Effect.isCommit]))
    show replay (applyEffect d e) tr = d
    rw [hstep]
    exact ih d (fun e' he' => h e' (List.mem_cons_of_mem e he'))

/-- A fetch effect is not a commit. -/
theorem isFetch_not_isCommit (e : Effect) (h : e.isFetch = true) : e.isCommit = false := by
  cases e <;> first | rfl | (exact absurd h (by simp [Effect.isFetch]))

/-- A left fold of `min` is a lower bound of the seed. -/
theorem foldl_min_le_init : ∀ (l : List ℚ) (a : ℚ), l.foldl min a ≤ a := by
  intro l
  induction l with
  | nil => intro a; exact le_refl a
  | cons x l ih =>
    intro a
    exact le_trans (ih (min a x)) (min_le_left a x)

/-- A left fold of `min` is a lower bound of every element. -/
theorem foldl_min_le_mem : ∀ (l : List ℚ) (a x : ℚ), x ∈ l → l.foldl min a ≤ x := by
  intro l
  induction l with
  | nil => intro a x hx; exact absurd hx (List.not_mem_nil x)
  | cons y l ih =>
    intro a x hx
    rcases List.mem_cons.mp hx with rfl | hx
    · exact le_trans (foldl_min_le_init l (min a x)) (min_le_right a x)
    · exact ih (min a y) x hx

/-- A left fold of `max` is an upper bound of the seed. -/
theorem le_foldl_max_init : ∀ (l : List ℚ) (a : ℚ), a ≤ l.foldl max a := by
  intro l
  induction l with
  | nil => intro a; exact le_refl a
  | cons x l ih =>
    intro a
    exact le_trans (le_max_left a x) (ih (max a x))

/-- A left fold of `max` is an upper bound of every element. -/
theorem le_foldl_max_mem : ∀ (l : List ℚ) (a x : ℚ), x ∈ l → x ≤ l.foldl max a := by
  intro l
  induction l with
  | nil => intro a x hx; exact absurd hx (List.not_mem_nil x)
  | cons y l ih =>
    intro a x hx
    rcases List.mem_cons.mp hx with rfl | hx
    · exact le_trans (le_max_right a x) (le_foldl_max_init l (max a x))
    · exact ih (max a y) x hx

/-- Folding `min` over elements all equal to the seed returns the seed. -/
theorem foldl_min_all_eq : ∀ (l : List ℚ) (a : ℚ), (∀ x ∈ l, x = a) → l.foldl min a = a := by
  intro l
  induction l with
  | nil => intro a _; rfl
  | cons y l ih =>
    intro a h
    have hy : y = a := h y (List.mem_cons_self y l)
    subst hy
    rw [List.foldl_cons, min_self]
    exact ih y (fun x hx => h x (List.mem_cons_of_mem y hx))

/-- Folding `max` over elements all equal to the seed returns the seed. -/
theorem foldl_max_all_eq : ∀ (l : List ℚ) (a : ℚ), (∀ x ∈ l, x = a) → l.foldl max a = a := by
  intro l
  induction l with
  | nil => intro a _; rfl
  | cons y l ih =>
    intro a h
    have hy : y = a := h y (List.mem_cons_self y l)
    subst hy
    rw [List.foldl_cons, max_self]
    exact ih y (fun x hx => h x (List.mem_cons_of_mem y hx))

/-- Unfolding `sparkline` when some value is present, via `sMin`/`sMax`. -/
theorem sparkline_eq_of_presentVals (values : List (Option ℚ)) (v0 : ℚ) (vrest : List ℚ)
    (hv : presentVals values = v0 :: vrest) :
    sparkline values =
      if sMin values = sMax values then List.replicate values.length '▁'
      else values.map (fun v =>
        match v with
        | none => ' '
        | some x => sparkGlyph ((x - sMin values) / (sMax values - sMin values) * 7)) := by
  have hmin : sMin values = vrest.foldl min v0 := by
    unfold sMin
    rw [hv]
  have hmax : sMax values = vrest.foldl max v0 := by
    unfold sMax
    rw [hv]
  unfold sparkline
  rw [show values.filterMap id = presentVals values from rfl, hv, hmin, hmax]

/-- Claim C2 (amended): `pct(old, new)` equals `(new − old) / old × 100` for
present operands with `old ≠ 0`, and is `None` exactly when `old` is absent,
`old` is zero, or `new` is absent; `pct(100, 80) = −20`, `pct(0, 50)` is
`None`, and `pct(100, 100)` is the defined value `0` (not `None`). -/
theorem c2_pct_spec :
    (∀ n, pct none n = none) ∧
    (∀ o, pct o none = none) ∧
    (∀ a b : ℚ, pct (some a) (some b) =
      if a = 0 then none else some ((b - a) / a * 100)) ∧
    (∀ o n, pct o n = none ↔ o = none ∨ o = some 0 ∨ n = none) ∧
    pct (some 100) (some 80) = some (-20) ∧
    pct (some 0) (some 50) = none ∧
    pct (some 100) (some 100) = some 0 := by
  refine ⟨?_, ?_, ?_, ?_, ?_, ?_, ?_⟩
  · intro n
    cases n <;> rfl
  · intro o
    cases o <;> rfl
  · intro a b
    rfl
  · intro o n
    rcases o with _ | a <;> rcases n with _ | b <;> simp [pct]
  · simp only [pct, if_neg (by norm_num : (100 : ℚ) ≠ 0)]
    norm_num
  · simp [pct]
  · simp only [pct, if_neg (by norm_num : (100 : ℚ) ≠ 0)]
    norm_num

/-- Claim C2, counterexample to the claim as stated: `pct(100, 100)` is not
undefined — the code returns `0.0` when both prices are present, equal, and
the old price is nonzero. -/
theorem c2_pct_equal_prices_defined :
    pct (some 100) (some 100) = some 0 ∧ pct (some 100) (some 100) ≠ none := by
  constructor
  · simp only [pct, if_neg (by norm_num : (100 : ℚ) ≠ 0)]
    norm_num
  · simp [pct]

/-- Claim C3: the change test is true iff previous is absent and current
present, or both present and numerically unequal; absent current alone never
counts; a product is changed iff some tracked market changed. -/
theorem c3_change_detection_spec :
    (∀ c : ℚ, changedPair none (some c) = true) ∧
    (∀ p : ℚ, changedPair (some p) none = false) ∧
    changedPair none none = false ∧
    (∀ p c : ℚ, changedPair (some p) (some c) = true ↔ p ≠ c) ∧
    (∀ (prev_infos : String → Option PrevRec) (infos : String → Option MInfo),
      productChanged prev_infos infos = true ↔
        ∃ m ∈ MARKETS,
          changedPair (prevPriceOf prev_infos m) (curPriceOf infos m) = true) := by
  refine ⟨?_, ?_, rfl, ?_, ?_⟩
  · intro c
    rfl
  · intro p
    rfl
  · intro p c
    simp [changedPair, bne_iff_ne]
  · intro prev_infos infos
    simp [productChanged, List.any_eq_true]

/-- Claim C4: only present prices are appended; across any number of runs
starting from a bounded history, the stored history is exactly the most
recent `HISTORY_KEEP`-bounded suffix of all appended points, in order, and
its length never exceeds `HISTORY_KEEP` (= 10). -/
theorem c4_history_spec :
    (∀ (h : List HistPoint) (ts : String), historyAppend h none ts = h) ∧
    (∀ (init : List HistPoint) (obs : List (Option ℚ × String)),
      init.length ≤ HISTORY_KEEP →
      runHistory init obs =
        (init ++ histPoints obs).drop ((init ++ histPoints obs).length - HISTORY_KEEP) ∧
      (runHistory init obs).length =
        min (init.length + (histPoints obs).length) HISTORY_KEEP ∧
      (runHistory init obs).length ≤ HISTORY_KEEP) := by
  constructor
  · intro h ts
    rfl
  · intro init obs hlen
    have he := runHistory_eq_suffix obs init hlen
    refine ⟨he, ?_, ?_⟩
    · rw [he, List.length_drop, List.length_append]
      omega
    · rw [he, List.length_drop, List.length_append]
      omega

/-- The twelve-observation input used to exercise the history bound. -/
def obsC4 : List (Option ℚ × String) :=
  [(some 1, "t01"), (some 2, "t02"), (some 3, "t03"), (none, "t04"),
   (some 4, "t05"), (some 5, "t06"), (some 6, "t07"), (some 7, "t08"),
   (some 8, "t09"), (some 9, "t10"), (some 10, "t11"), (some 11, "t12"),
   (some 12, "t13")]

/-- Claim C4, witness: the bound and suffix shape hold at a concrete run of
thirteen observations (twelve present) from an empty history. -/
theorem c4_history_spec_witness :
    ([] : List HistPoint).length ≤ HISTORY_KEEP ∧
    (runHistory [] obsC4 =
      (([] : List HistPoint) ++ histPoints obsC4).drop
        ((([] : List HistPoint) ++ histPoints obsC4).length - HISTORY_KEEP) ∧
    (runHistory [] obsC4).length =
      min (([] : List HistPoint).length + (histPoints obsC4).length) HISTORY_KEEP ∧
    (runHistory [] obsC4).length ≤ HISTORY_KEEP) :=
  ⟨by decide, c4_history_spec.2 [] obsC4 (by decide)⟩

/-- Claim C10: when at least one value is present and all present values are
equal, the sparkline is the lowest glyph repeated once per input position —
absent positions included — with no blanks. -/
theorem c10_sparkline_uniform :
    ∀ (values : List (Option ℚ)) (c : ℚ),
      presentVals values ≠ [] → (∀ v ∈ presentVals values, v = c) →
      sparkline values = List.replicate values.length '▁' ∧
      (sparkline values).length = values.length ∧
      ' ' ∉ sparkline values := by
  intro values c hne hall
  rcases hv : presentVals values with _ | ⟨v0, vrest⟩
  · exact absurd hv hne
  · have hv0 : v0 = c := hall v0 (by rw [hv]; exact List.mem_cons_self v0 vrest)
    have hrest : ∀ x ∈ vrest, x = v0 := by
      intro x hx
      rw [hv0]
      exact hall x (by rw [hv]; exact List.mem_cons_of_mem v0 hx)
    have hmin : sMin values = v0 := by
      unfold sMin
      rw [hv]
      exact foldl_min_all_eq vrest v0 hrest
    have hmax : sMax values = v0 := by
      unfold sMax
      rw [hv]
      exact foldl_max_all_eq vrest v0 hrest
    have hs : sparkline values = List.replicate values.length '▁' := by
      rw [sparkline_eq_of_presentVals values v0 vrest hv, if_pos (by rw [hmin, hmax])]
    refine ⟨hs, by rw [hs, List.length_replicate], ?_⟩
    rw [hs]
    intro hmem
    have := (List.eq_of_mem_replicate hmem)
    exact absurd this (by decide)

/-- Claim C10, witness: a series with one absent position and equal present
values renders as three lowest glyphs, none blank. -/
theorem c10_sparkline_uniform_witness :
    sparkline [some 5, none, some 5] = List.replicate 3 '▁' ∧
    (sparkline [some 5, none, some 5]).length = 3 ∧
    ' ' ∉ sparkline [some 5, none, some 5] :=
  c10_sparkline_uniform [some 5, none, some 5] 5 (by decide) (by decide)

/-- Claim C8: the sparkline renders one glyph per position from the fixed
8-glyph palette — empty output when no value is present, the lowest glyph
repeated when all present values are equal, otherwise the glyph at index
`⌊(v − min) / (max − min) × 7⌋` for each present value and a blank for each
absent position; `sMin`/`sMax` really are the minimum/maximum of the present
values, and the two concrete examples render as claimed. -/
theorem c8_sparkline_spec :
    (∀ values : List (Option ℚ), presentVals values = [] → sparkline values = []) ∧
    (∀ values : List (Option ℚ), presentVals values ≠ [] →
      (sMin values = sMax values →
        sparkline values = List.replicate values.length '▁') ∧
      (sMin values ≠ sMax values →
        sparkline values = values.map (fun v =>
          match v with
          | none => ' '
          | some x => sparkGlyph ((x - sMin values) / (sMax values - sMin values) * 7)) ∧
        (sparkline values).length = values.length)) ∧
    (∀ (values : List (Option ℚ)) (v : ℚ), some v ∈ values →
      sMin values ≤ v ∧ v ≤ sMax values) ∧
    sparkline [some 10, some 10, some 10] = ['▁', '▁', '▁'] ∧
    (sparkline [some 1, some 5, some 10] = ['▁', '▄', '█'] ∧
      '▁' ≠ '▄' ∧ '▄' ≠ '█' ∧ '▁' ≠ '█') := by
  refine ⟨?_, ?_, ?_, ?_, ?_, by decide, by decide, by decide⟩
  · intro values h
    unfold sparkline
    rw [show values.filterMap id = presentVals values from rfl, h]
  · intro values hne
    rcases hv : presentVals values with _ | ⟨v0, vrest⟩
    · exact absurd hv hne
    · constructor
      · intro heq
        rw [sparkline_eq_of_presentVals values v0 vrest hv, if_pos heq]
      · intro hneq
        rw [sparkline_eq_of_presentVals values v0 vrest hv, if_neg hneq]
        exact ⟨rfl, by rw [List.length_map]⟩
  · intro values v hmem
    have hp : v ∈ presentVals values := List.mem_filterMap.mpr ⟨some v, hmem, rfl⟩
    rcases hv : presentVals values with _ | ⟨v0, vrest⟩
    · rw [hv] at hp
      exact absurd hp (List.not_mem_nil v)
    · rw [hv] at hp
      have hmin : sMin values = vrest.foldl min v0 := by
        unfold sMin
        rw [hv]
      have hmax : sMax values = vrest.foldl max v0 := by
        unfold sMax
        rw [hv]
      rcases List.mem_cons.mp hp with rfl | hp
      · exact ⟨hmin ▸ foldl_min_le_init vrest v, hmax ▸ le_foldl_max_init vrest v⟩
      · exact ⟨hmin ▸ foldl_min_le_mem vrest v0 v hp,
          hmax ▸ le_foldl_max_mem vrest v0 v hp⟩
  · norm_num [sparkline, List.filterMap, min_def, max_def]
    rfl
  · norm_num [sparkline, sparkGlyph, sparkChars, List.filterMap, min_def, max_def]
    exact ⟨rfl, rfl⟩

/-- Claim C8, witness: the general rendering formula at a concrete series
with an absent middle position. -/
theorem c8_sparkline_spec_witness :
    sparkline [some 1, none, some 10] =
      [some 1, none, some 10].map (fun v =>
        match v with
        | none => ' '
        | some x => sparkGlyph ((x - sMin [some 1, none, some 10]) /
            (sMax [some 1, none, some 10] - sMin [some 1, none, some 10]) * 7)) ∧
    (sparkline [some 1, none, some 10]).length = 3 :=
  (c8_sparkline_spec.2.1 [some 1, none, some 10] (by decide)).2
    (by norm_num [sMin, sMax, presentVals, List.filterMap, min_def, max_def])

/-- The `{sa: 20, us: 5, uk: 4}` infos of the spec's cheapest example. -/
def infosC6 : String → Option MInfo := fun mc =>
  if mc = "sa" then some { emptyMInfo with price := some 20 }
  else if mc = "us" then some { emptyMInfo with price := some 5 }
  else if mc = "uk" then some { emptyMInfo with price := some 4 } else none

/-- Claim C6: `cheapest` is the raw numeric minimum among markets with a
present price — the currencies are never consulted or converted — with ties
broken by the fixed sa, us, uk iteration order (the first market attaining
the minimum wins), and it is absent iff no market has a price; on
`{sa: 20, us: 5, uk: 4}` it selects `uk`. -/
theorem c6_cheapest_spec :
    (∀ (asin : String) (title : Option String) (infos : String → Option MInfo)
        (prev_infos : String → Option PrevRec) (convert : Bool) (rates : Option RateMap)
        (res : BpsAcc),
      build_product_summary asin title infos prev_infos convert rates = .ok res →
        (res.cheapest = none ↔ ∀ m ∈ MARKETS, curPriceOf infos m = none) ∧
        (∀ c, res.cheapest = some c →
          ∃ pre post w, MARKETS = pre ++ w :: post ∧ c.mc = w.code ∧
            c.currency = curCurrencyOf infos w ∧ curPriceOf infos w = some c.price ∧
            (∀ m ∈ MARKETS, ∀ pm, curPriceOf infos m = some pm → c.price ≤ pm) ∧
            (∀ m ∈ pre, ∀ pm, curPriceOf infos m = some pm → c.price < pm))) ∧
    (build_product_summary "B0EXAMPLE" none infosC6 (fun _ => none) false none).map
        BpsAcc.cheapest = .ok (some ⟨4, "GBP", "uk"⟩) := by
  constructor
  · intro asin title infos prev_infos convert rates res h
    have hcomp := (bpsFold_components convert rates infos prev_infos MARKETS
      ⟨[], none, none⟩ res h).1
    constructor
    · rw [hcomp]
      exact foldl_selStep_none_iff (curPriceOf infos) (cheapestMk infos) Cheapest.price
        (fun k m => rfl) MARKETS
    · intro c hc
      rw [hcomp] at hc
      obtain ⟨k, w, pre, post, hrmk, hkw, hdec, hmin, hpre⟩ :=
        foldl_selStep_none_some (curPriceOf infos) (cheapestMk infos) Cheapest.price
          (fun k m => rfl) MARKETS c hc
      refine ⟨pre, post, w, hdec, by rw [hrmk]; rfl, by rw [hrmk]; rfl,
        by rw [hrmk]; exact hkw, ?_, ?_⟩
      · intro m hm pm hpm
        rw [hrmk]
        exact hmin m hm pm hpm
      · intro m hm pm hpm
        rw [hrmk]
        exact hpre m hm pm hpm
  · rfl

/-- The summary computed on the cheapest example (used by witnesses). -/
def resC6 : BpsAcc :=
  match build_product_summary "B0EXAMPLE" none infosC6 (fun _ => none) false none with
  | .ok r => r
  | .error _ => ⟨[], none, none⟩

/-- Claim C6, witness: on `{sa: 20, us: 5, uk: 4}` the winning market is `uk`
with the raw minimum 4, strictly cheaper than every earlier market. -/
theorem c6_cheapest_spec_witness :
    ∃ pre post w, MARKETS = pre ++ w :: post ∧ "uk" = w.code ∧
      "GBP" = curCurrencyOf infosC6 w ∧ curPriceOf infosC6 w = some 4 ∧
      (∀ m ∈ MARKETS, ∀ pm, curPriceOf infosC6 m = some pm → (4 : ℚ) ≤ pm) ∧
      (∀ m ∈ pre, ∀ pm, curPriceOf infosC6 m = some pm → (4 : ℚ) < pm) :=
  (c6_cheapest_spec.1 "B0EXAMPLE" none infosC6 (fun _ => none) false none resC6 rfl).2
    ⟨4, "GBP", "uk"⟩ rfl

/-- Claim C7 (amended): `biggest_drop` considers exactly the markets where
both prices are present, the previous price is nonzero, and current <
previous; it selects the most negative percent change with ties broken by
the fixed iteration order (first wins), is absent iff no market so dropped,
and the winning percent change is negative whenever the previous price is
positive. -/
theorem c7_biggest_drop_spec :
    ∀ (asin : String) (title : Option String) (infos : String → Option MInfo)
        (prev_infos : String → Option PrevRec) (convert : Bool) (rates : Option RateMap)
        (res : BpsAcc),
      build_product_summary asin title infos prev_infos convert rates = .ok res →
        (res.biggest_drop = none ↔ ∀ m ∈ MARKETS, ¬∃ pv cv,
            prevPriceOf prev_infos m = some pv ∧ curPriceOf infos m = some cv ∧
            pv ≠ 0 ∧ cv < pv) ∧
        (∀ d, res.biggest_drop = some d →
          ∃ pre post w, MARKETS = pre ++ w :: post ∧ d.mc = w.code ∧
            (∃ pv cv, prevPriceOf prev_infos w = some pv ∧ curPriceOf infos w = some cv ∧
              pv ≠ 0 ∧ cv < pv ∧ d.pctv = (cv - pv) / pv * 100 ∧
              d.prevp = pv ∧ d.curp = cv ∧ (0 < pv → d.pctv < 0)) ∧
            (∀ m ∈ MARKETS, ∀ km, dropKey infos prev_infos m = some km → d.pctv ≤ km) ∧
            (∀ m ∈ pre, ∀ km, dropKey infos prev_infos m = some km → d.pctv < km)) := by
  intro asin title infos prev_infos convert rates res h
  have hcomp := (bpsFold_components convert rates infos prev_infos MARKETS
    ⟨[], none, none⟩ res h).2
  constructor
  · rw [hcomp]
    rw [foldl_selStep_none_iff (dropKey infos prev_infos) (dropMk infos prev_infos)
      Drop.pctv (fun k m => rfl) MARKETS]
    constructor
    · intro h2 m hm
      exact (dropKey_eq_none_iff infos prev_infos m).mp (h2 m hm)
    · intro h2 m hm
      exact (dropKey_eq_none_iff infos prev_infos m).mpr (h2 m hm)
  · intro d hd
    rw [hcomp] at hd
    obtain ⟨k, w, pre, post, hrmk, hkw, hdec, hmin, hpre⟩ :=
      foldl_selStep_none_some (dropKey infos prev_infos) (dropMk infos prev_infos)
        Drop.pctv (fun k m => rfl) MARKETS d hd
    obtain ⟨pv, cv, hp, hc, h0, hlt, hkval⟩ :=
      (dropKey_eq_some_iff infos prev_infos w k).mp hkw
    have hdp : d.pctv = k := by rw [hrmk]; rfl
    refine ⟨pre, post, w, hdec, by rw [hrmk]; rfl,
      ⟨pv, cv, hp, hc, h0, hlt, ?_, ?_, ?_, ?_⟩, ?_, ?_⟩
    · rw [hdp, hkval]
    · rw [hrmk]
      show (prevPriceOf prev_infos w).getD 0 = pv
      rw [hp]
      rfl
    · rw [hrmk]
      show (curPriceOf infos w).getD 0 = cv
      rw [hc]
      rfl
    · intro hpv
      rw [hdp, hkval]
      have h1 : cv - pv < 0 := by linarith
      have h2 : (cv - pv) / pv < 0 := div_neg_of_neg_of_pos h1 hpv
      exact mul_neg_of_neg_of_pos h2 (by norm_num)
    · intro m hm km hkm
      rw [hdp]
      exact hmin m hm km hkm
    · intro m hm km hkm
      rw [hdp]
      exact hpre m hm km hkm

/-- An input where the `sa` market drops from a zero previous price: both
prices present and current < previous, yet the code excludes it. -/
def infosC7x : String → Option MInfo := fun mc =>
  if mc = "sa" then some { emptyMInfo with price := some (-1) } else none

/-- The stored previous snapshot with a zero `sa` price. -/
def prevC7x : String → Option PrevRec := fun mc =>
  if mc = "sa" then some ⟨some 0, some "SAR"⟩ else none

/-- Claim C7, counterexample to the claim as stated: at `sa` both prices are
present and current (−1) < previous (0), so the claim's considered set is
nonempty and a biggest drop should be returned — but `pct(0, −1)` is `None`
(zero old price), so the code's `biggest_drop` is absent. -/
theorem c7_zero_previous_counterexample :
    (build_product_summary "B0EXAMPLE" none infosC7x prevC7x false none).map
        BpsAcc.biggest_drop = .ok none ∧
    prevPriceOf prevC7x ⟨"sa", "amazon.sa", "Amazon.sa", "SAR"⟩ = some 0 ∧
    curPriceOf infosC7x ⟨"sa", "amazon.sa", "Amazon.sa", "SAR"⟩ = some (-1) ∧
    (⟨"sa", "amazon.sa", "Amazon.sa", "SAR"⟩ : Market) ∈ MARKETS ∧
    (-1 : ℚ) < 0 := by
  refine ⟨rfl, rfl, rfl, by decide, by norm_num⟩

/-- The `us: 20 → 12` drop input (used by the C7 witness). -/
def infosC7w : String → Option MInfo := fun mc =>
  if mc = "us" then some { emptyMInfo with price := some 12 } else none

/-- The stored previous snapshot for the C7 witness. -/
def prevC7w : String → Option PrevRec := fun mc =>
  if mc = "us" then some ⟨some 20, some "USD"⟩ else none

/-- The summary computed on the drop input. -/
def resC7w : BpsAcc :=
  match build_product_summary "B0EXAMPLE" none infosC7w prevC7w false none with
  | .ok r => r
  | .error _ => ⟨[], none, none⟩

/-- Claim C7, witness: on `us: 20 → 12` the biggest drop is `us` with percent
change `(12 − 20)/20 × 100`, minimal among all drop keys. -/
theorem c7_biggest_drop_spec_witness :
    ∃ pre post w, MARKETS = pre ++ w :: post ∧ "us" = w.code ∧
      (∃ pv cv, prevPriceOf prevC7w w = some pv ∧ curPriceOf infosC7w w = some cv ∧
        pv ≠ 0 ∧ cv < pv ∧ ((12 - 20) / 20 * 100 : ℚ) = (cv - pv) / pv * 100 ∧
        (20 : ℚ) = pv ∧ (12 : ℚ) = cv ∧
        (0 < pv → ((12 - 20) / 20 * 100 : ℚ) < 0)) ∧
      (∀ m ∈ MARKETS, ∀ km, dropKey infosC7w prevC7w m = some km →
        ((12 - 20) / 20 * 100 : ℚ) ≤ km) ∧
      (∀ m ∈ pre, ∀ km, dropKey infosC7w prevC7w m = some km →
        ((12 - 20) / 20 * 100 : ℚ) < km) :=
  (c7_biggest_drop_spec "B0EXAMPLE" none infosC7w prevC7w false none resC7w rfl).2
    ⟨(12 - 20) / 20 * 100, "us", 20, 12⟩ rfl

/-- Claim C5: on a successful run the two durable documents are each written
exactly once, after every fetch (all product processing) and before any
send; on a failed run no commit effect is emitted, so replaying the trace
leaves durable state equal to the pre-run state; replaying any commit-free
prefix of a run's trace never changes durable state. -/
theorem c5_commit_once_spec :
    ∀ (products : List TrackedProduct) (fetchRes : String → String → RawProduct)
      (prev0 : PrevMap) (hist0 : HistMap) (digest convert : Bool)
      (rates : Option RateMap) (now : String),
      (∀ out tr,
        runMain products fetchRes prev0 hist0 digest convert rates now = (.ok out, tr) →
        ∃ trF trS, tr = trF ++ [Effect.commitHistory out.hist, Effect.commitPrev out.prev] ++ trS ∧
          (∀ e ∈ trF, e.isFetch = true) ∧ (∀ e ∈ trS, e.isSend = true)) ∧
      (∀ err tr,
        runMain products fetchRes prev0 hist0 digest convert rates now = (.error err, tr) →
        ∀ d, replay d tr = d) ∧
      (∀ (pre rest : List Effect) (d : Durable),
        pre ++ rest = (runMain products fetchRes prev0 hist0 digest convert rates now).2 →
        (∀ e ∈ pre, e.isCommit = false) → replay d pre = d) := by
  intro products fetchRes prev0 hist0 digest convert rates now
  have hfetch := runLoop_tr_fetch fetchRes convert rates now products ⟨prev0, hist0⟩
  refine ⟨?_, ?_, ?_⟩
  · intro out tr h
    unfold runMain at h
    dsimp only at h
    rcases hl : (runLoop fetchRes convert rates now ⟨prev0, hist0⟩ products).1 with
      er | ⟨st, updates⟩ <;> rw [hl] at h <;> dsimp only at h
    · exact absurd h (by simp)
    · by_cases hu : updates.isEmpty
      · rw [if_pos hu] at h
        injection h with h1 h2
        injection h1 with h1
        subst h1
        refine ⟨(runLoop fetchRes convert rates now ⟨prev0, hist0⟩ products).2, [], ?_, ?_, ?_⟩
        · rw [← h2]
          simp
        · exact hfetch
        · intro e he
          exact absurd he (List.not_mem_nil e)
      · rw [if_neg hu] at h
        injection h with h1 h2
        injection h1 with h1
        subst h1
        refine ⟨(runLoop fetchRes convert rates now ⟨prev0, hist0⟩ products).2,
          (if digest then [digestEmbed now updates]
           else updates.map (composeProductEmbed now)).map Effect.send, ?_, ?_, ?_⟩
        · rw [← h2]
        · exact hfetch
        · intro e he
          rcases List.mem_map.mp he with ⟨em, _, rfl⟩
          rfl
  · intro err tr h
    unfold runMain at h
    dsimp only at h
    rcases hl : (runLoop fetchRes convert rates now ⟨prev0, hist0⟩ products).1 with
      er | ⟨st, updates⟩ <;> rw [hl] at h <;> dsimp only at h
    · injection h with h1 h2
      intro d
      subst h2
      exact replay_no_commit _ d
        (fun e he => isFetch_not_isCommit e (hfetch e he))
    · by_cases hu : updates.isEmpty
      · rw [if_pos hu] at h
        exact absurd h (by simp)
      · rw [if_neg hu] at h
        exact absurd h (by simp)
  · intro pre rest d _ hnc
    exact replay_no_commit pre d hnc

/-- A minimal successful run (no products) used by the C5 witness. -/
def runC5w : Except String RunOut × List Effect :=
  runMain [] (fun _ _ => emptyRawProduct) (fun _ _ => none) (fun _ _ => []) false false
    none "T0"

/-- The outcome of the minimal run. -/
def outC5w : RunOut :=
  match runC5w.1 with
  | .ok o => o
  | .error _ => ⟨fun _ _ => none, fun _ _ => [], [], []⟩

/-- Claim C5, witness: the minimal run's trace decomposes as fetches, then
the two commits, then sends. -/
theorem c5_commit_once_spec_witness :
    ∃ trF trS,
      runC5w.2 = trF ++ [Effect.commitHistory outC5w.hist, Effect.commitPrev outC5w.prev]
        ++ trS ∧
      (∀ e ∈ trF, e.isFetch = true) ∧ (∀ e ∈ trS, e.isSend = true) :=
  (c5_commit_once_spec [] (fun _ _ => emptyRawProduct) (fun _ _ => none) (fun _ _ => [])
    false false none "T0").1 outC5w runC5w.2 rfl

/-- Claim C9 (amended): in per-product mode every embed is composed by
`composeProductEmbed`, whose color is `0x2ECC71` when the update has a
biggest drop and `0x95A5A6` otherwise — two signals only, the second shared
by increases and newly-seen prices; digest mode always uses `0xF1C40F`. -/
theorem c9_embed_color_spec :
    (∀ (products : List TrackedProduct) (fetchRes : String → String → RawProduct)
        (prev0 : PrevMap) (hist0 : HistMap) (convert : Bool) (rates : Option RateMap)
        (now : String) (out : RunOut) (tr : List Effect),
      runMain products fetchRes prev0 hist0 false convert rates now = (.ok out, tr) →
        out.embeds = out.updates.map (composeProductEmbed now)) ∧
    (∀ (products : List TrackedProduct) (fetchRes : String → String → RawProduct)
        (prev0 : PrevMap) (hist0 : HistMap) (convert : Bool) (rates : Option RateMap)
        (now : String) (out : RunOut) (tr : List Effect),
      runMain products fetchRes prev0 hist0 true convert rates now = (.ok out, tr) →
        ∀ e ∈ out.embeds, e.color = 0xF1C40F) ∧
    (∀ (now : String) (u : Update),
      (composeProductEmbed now u).color =
        if u.biggest_drop.isSome then 0x2ECC71 else 0x95A5A6) := by
  refine ⟨?_, ?_, ?_⟩
  · intro products fetchRes prev0 hist0 convert rates now out tr h
    unfold runMain at h
    dsimp only at h
    rcases hl : (runLoop fetchRes convert rates now ⟨prev0, hist0⟩ products).1 with
      er | ⟨st, updates⟩ <;> rw [hl] at h <;> dsimp only at h
    · exact absurd h (by simp)
    · by_cases hu : updates.isEmpty
      · rw [if_pos hu] at h
        injection h with h1 h2
        injection h1 with h1
        subst h1
        have : updates = [] := List.isEmpty_iff.mp hu
        subst this
        rfl
      · rw [if_neg hu] at h
        injection h with h1 h2
        injection h1 with h1
        subst h1
        rfl
  · intro products fetchRes prev0 hist0 convert rates now out tr h
    unfold runMain at h
    dsimp only at h
    rcases hl : (runLoop fetchRes convert rates now ⟨prev0, hist0⟩ products).1 with
      er | ⟨st, updates⟩ <;> rw [hl] at h <;> dsimp only at h
    · exact absurd h (by simp)
    · by_cases hu : updates.isEmpty
      · rw [if_pos hu] at h
        injection h with h1 h2
        injection h1 with h1
        subst h1
        intro e he
        exact absurd he (List.not_mem_nil e)
      · rw [if_neg hu] at h
        injection h with h1 h2
        injection h1 with h1
        subst h1
        intro e he
        simp only [if_true, List.mem_singleton] at he
        subst he
        rfl
  · intro now u
    rfl

/-- Fetch results for the C9 scenarios: only `amazon.com` returns a price. -/
def fetchC9 : String → String → RawProduct := fun _ d =>
  if d = "amazon.com" then { emptyRawProduct with buybox_price := some ⟨some 12, some "USD"⟩ }
  else emptyRawProduct

/-- Stored snapshot for the increase scenario: `us` was 10, is fetched at 12. -/
def prevC9 : PrevMap := fun a mc =>
  if a = "A1" ∧ mc = "us" then some ⟨some 10, some "USD"⟩ else none

/-- The per-product run where the only change is a price increase. -/
def runC9inc : Except String RunOut × List Effect :=
  runMain [⟨"A1", some "W"⟩] fetchC9 prevC9 (fun _ _ => []) false false none "T0"

/-- The per-product run where a price appears with no stored previous price
(a change with no material price movement on any market). -/
def runC9new : Except String RunOut × List Effect :=
  runMain [⟨"A1", some "W"⟩] fetchC9 (fun _ _ => none) (fun _ _ => []) false false none "T0"

/-- The colors of the embeds a run emits. -/
def embedColors (r : Except String RunOut × List Effect) : List Nat :=
  match r.1 with
  | .ok o => o.embeds.map Embed.color
  | .error _ => []

/-- Claim C9, counterexample to the claim as stated: a changed product whose
only movement is an increase (`us` 10 → 12) and a changed product with no
material movement (price newly seen, no stored previous) receive the same
color `0x95A5A6` — the code selects between two signals only, so no
assignment of three distinct severity signals matches it. -/
theorem c9_two_signals_counterexample :
    embedColors runC9inc = [0x95A5A6] ∧
    embedColors runC9new = [0x95A5A6] ∧
    prevC9 "A1" "us" = some ⟨some 10, some "USD"⟩ ∧
    pick_price_from_product (fetchC9 "A1" "amazon.com") = (some 12, some "USD") ∧
    (10 : ℚ) < 12 :=
  ⟨rfl, rfl, rfl, rfl, by norm_num⟩

/-- The run used by the C9 witness: `us` drops 20 → 12, coloring `0x2ECC71`. -/
def runC9drop : Except String RunOut × List Effect :=
  runMain [⟨"A1", some "W"⟩] fetchC9
    (fun a mc => if a = "A1" ∧ mc = "us" then some ⟨some 20, some "USD"⟩ else none)
    (fun _ _ => []) false false none "T0"

/-- The outcome of the drop run. -/
def outC9drop : RunOut :=
  match runC9drop.1 with
  | .ok o => o
  | .error _ => ⟨fun _ _ => none, fun _ _ => [], [], []⟩

/-- Claim C9, witness: on the drop run the embeds are exactly the composed
per-product embeds. -/
theorem c9_embed_color_spec_witness :
    outC9drop.embeds = outC9drop.updates.map (composeProductEmbed "T0") :=
  c9_embed_color_spec.1 [⟨"A1", some "W"⟩] fetchC9
    (fun a mc => if a = "A1" ∧ mc = "us" then some ⟨some 20, some "USD"⟩ else none)
    (fun _ _ => []) false none "T0" outC9drop runC9drop.2 rfl

/-- Stored snapshot for the C1 scenario: a previous price exists at
`(A1, sa)`. -/
def prevC1 : PrevMap := fun a mc =>
  if a = "A1" ∧ mc = "sa" then some ⟨some 100, some "SAR"⟩ else none

/-- The C1 run: every fetch fails (`fetch_rainforest` returns `{}`). -/
def runC1 : Except String RunOut × List Effect :=
  runMain [⟨"A1", some "Widget"⟩] (fun _ _ => emptyRawProduct) prevC1 (fun _ _ => [])
    false false none "T0"

/-- Claim C1, evaluation at the failing input: with a stored previous price
at `(A1, sa)` and an all-absent fetch for that market, the run raises the
line-189 `TypeError` (`curp < prevp` with `curp = None`) instead of degrading
the record and continuing; no commit is ever performed, so durable state is
untouched. -/
theorem c1_fetch_failure_raises :
    runC1.1 = .error "TypeError: unorderable None and float in sign comparison" ∧
    runC1.2.all (fun e => !e.isCommit) = true ∧
    prevC1 "A1" "sa" = some ⟨some 100, some "SAR"⟩ ∧
    pick_price_from_product emptyRawProduct = (none, none) ∧
    (∀ d : Durable, replay d runC1.2 = d) :=
  ⟨rfl, rfl, rfl, rfl, fun d => rfl⟩
